import Mathlib

/-!
# Verification of the cube marathon timer session state machine

Shallow embedding of `src/main.rs` of `lbeierlieb/cube_marathon_timer`.

Modelling conventions:
- `Instant` timestamps and `f32` durations are modelled as rationals (`ℚ`).
  The clock is monotonic, so `Instant::elapsed` at a clock reading `t` with a
  stored start `b` is the difference `t - b` (always non-negative in a real
  execution, where clock readings never decrease).
- Each clock sample taken while handling one key event is an explicit input:
  `solve_done` reads the clock four times (two `elapsed` samples, the new
  `current_begin`, and the total-elapsed sample), `start_timing` twice.
  An `Input` bundles the key with the (at most four) clock readings the
  handler may take, in the order it takes them.
- The `u8` fields `target` and `counter` are `Nat`; the source guards
  `target` updates explicitly, and the unguarded `counter + 1` is modelled
  with the wrap-around `% 256` of the machine type, so that absence of
  overflow is a theorem, not an assumption.
- The audio cue (`beep`) has no effect on session state and is omitted;
  `panic!`/`unwrap` paths are modelled with `Option`.
-/

/-- `struct Solve { number: u8, time: f32 }` (main.rs lines 23-27). -/
structure Solve where
  number : ℕ
  time : ℚ
deriving DecidableEq, Repr

/-- `enum State { Begin, Running, Finished }` (main.rs lines 29-34). -/
inductive State where
  | Begin
  | Running
  | Finished
deriving DecidableEq, Repr

/-- `struct App` (main.rs lines 36-46). -/
structure App where
  state : State
  target : ℕ
  counter : ℕ
  total_begin : ℚ
  total_time : ℚ
  current_begin : ℚ
  exit : Bool
  solves : List Solve
deriving DecidableEq, Repr

/-- The keys the handler distinguishes: `q`, `r`, space, Left, Right, and
anything else (main.rs lines 110-129). -/
inductive Key where
  | q
  | r
  | space
  | left
  | right
  | other
deriving DecidableEq, Repr

/-- One input event: the key pressed together with the clock readings the
handler may take while processing it, in order.  `solve_done` reads the clock
at `t1` (debounce sample), `t2` (recorded duration sample), `t3` (new
`current_begin`) and `t4` (total-elapsed sample); `start_timing` reads it at
`t1` (new `total_begin`) and `t2` (new `current_begin`). -/
structure Input where
  key : Key
  t1 : ℚ
  t2 : ℚ
  t3 : ℚ
  t4 : ℚ
deriving DecidableEq, Repr

/-- `impl Default for App` (main.rs lines 48-61): state Begin, target 42,
counter 0, no solves.  The two `Instant::now()` placeholders are time 0. -/
def App.default : App :=
  { state := State.Begin
    target := 42
    counter := 0
    total_begin := 0
    total_time := 0
    current_begin := 0
    exit := false
    solves := [] }

/-- `fn start_timing` (main.rs lines 131-136): enter Running and take the two
`Instant::now()` readings for `total_begin` and `current_begin`.  The `beep()`
side effect does not touch session state. -/
def App.start_timing (a : App) (t1 t2 : ℚ) : App :=
  { a with state := State.Running, total_begin := t1, current_begin := t2 }

/-- `fn increment_target` (main.rs lines 142-146): `+1` guarded by `target < 255`. -/
def App.increment_target (a : App) : App :=
  if a.target < 255 then { a with target := a.target + 1 } else a

/-- `fn decrement_target` (main.rs lines 148-152): `-1` guarded by `target > 2`. -/
def App.decrement_target (a : App) : App :=
  if a.target > 2 then { a with target := a.target - 1 } else a

/-- `fn solve_done` (main.rs lines 154-173).  `t1` is the clock at the first
`current_begin.elapsed()` sample (debounce check), `t2` at the second sample
(the recorded duration), `t3` is the new `current_begin`, `t4` the clock at
`total_begin.elapsed()` in the completion branch.  `counter += 1` on the `u8`
is wrap-around `% 256`. -/
def App.solve_done (a : App) (t1 t2 t3 t4 : ℚ) : App :=
  if t1 - a.current_begin < 1/2 then a
  else
    let c := (a.counter + 1) % 256
    let a' := { a with
      counter := c
      current_begin := t3
      solves := a.solves ++ [⟨c, t2 - a.current_begin⟩] }
    if c = a.target then
      { a' with total_time := t4 - a.total_begin, state := State.Finished }
    else a'

/-- `fn reset` (main.rs lines 175-179): back to Begin, counter 0, solves
cleared; every other field (in particular `target` and `total_time`) is left
untouched. -/
def App.reset (a : App) : App :=
  { a with state := State.Begin, counter := 0, solves := [] }

/-- `fn handle_key_event` (main.rs lines 110-129).  `fn exit` (lines 138-140)
just sets the exit flag and is inlined. -/
def App.handle_key_event (a : App) (i : Input) : App :=
  match a.state with
  | State.Begin =>
    match i.key with
    | Key.q => { a with exit := true }
    | Key.right => a.increment_target
    | Key.left => a.decrement_target
    | Key.space => a.start_timing i.t1 i.t2
    | _ => a
  | State.Running =>
    match i.key with
    | Key.q => { a with exit := true }
    | _ => a.solve_done i.t1 i.t2 i.t3 i.t4
  | State.Finished =>
    match i.key with
    | Key.q => { a with exit := true }
    | Key.r => a.reset
    | _ => a

/-- `fn calculate_average` (main.rs lines 273-279): `None` when `counter == 0`,
else the sum of the solve times divided by `counter`. -/
def calculate_average (a : App) : Option ℚ :=
  if a.counter = 0 then none
  else some ((a.solves.map Solve.time).sum / (a.counter : ℚ))

/-- Accumulator step of `Iterator::min_by` over solve times: the running
minimum, `none` before the first element. -/
def minStep : Option ℚ → ℚ → Option ℚ :=
  fun acc t =>
    match acc with
    | none => some t
    | some m => some (min m t)

/-- Accumulator step of `Iterator::max_by` over solve times. -/
def maxStep : Option ℚ → ℚ → Option ℚ :=
  fun acc t =>
    match acc with
    | none => some t
    | some m => some (max m t)

/-- `fn calculate_fastest` (main.rs lines 281-286): minimum solve time, `none`
on an empty list.  The `partial_cmp(..).unwrap()` comparator is total on the
rational model (no NaN). -/
def calculate_fastest (a : App) : Option ℚ :=
  (a.solves.map Solve.time).foldl minStep none

/-- `fn calculate_slowest` (main.rs lines 288-293): maximum solve time, `none`
on the empty list. -/
def calculate_slowest (a : App) : Option ℚ :=
  (a.solves.map Solve.time).foldl maxStep none

/-- `fn predict_total_time` (main.rs lines 295-298): `average * target`,
propagating `None`. -/
def predict_total_time (a : App) : Option ℚ :=
  (calculate_average a).map (fun v => v * (a.target : ℚ))

/-- `fn predict_marathon_time` (main.rs lines 300-302):
`calculate_average(app).unwrap() * 42.0`.  The `unwrap` panic on an absent
average is modelled as `none`. -/
def predict_marathon_time (a : App) : Option ℚ :=
  (calculate_average a).map (fun v => v * 42)

/-- The `Current cube` value rendered in the Running statistics panel:
`app.counter + 1` on the `u8` (main.rs line 316), with wrap-around. -/
def currentCubeDisplay (a : App) : ℕ :=
  (a.counter + 1) % 256

/-- States reachable from `App::default()` by key events (the run loop of
main.rs lines 65-71 feeds every event to `handle_key_event`). -/
inductive Reachable : App → Prop
  | init : Reachable App.default
  | step (a : App) (i : Input) : Reachable a → Reachable (a.handle_key_event i)

/-- The session invariant: counter mirrors the solve list length, the target
stays a `u8` in `[2, 255]`, the counter never exceeds the target, Begin states
carry an empty session, Running states are strictly below the target and
Finished states have exactly reached it. -/
def SessionInv (a : App) : Prop :=
  a.counter = a.solves.length ∧
  2 ≤ a.target ∧
  a.target ≤ 255 ∧
  a.counter ≤ a.target ∧
  (a.state = State.Begin → a.counter = 0 ∧ a.solves = []) ∧
  (a.state = State.Running → a.counter < a.target) ∧
  (a.state = State.Finished → a.counter = a.target)

/-- A Left-key event (times irrelevant for target adjustment). -/
def inputL : Input := ⟨Key.left, 0, 0, 0, 0⟩

/-- A space-key event starting the session at time 0. -/
def inputSpace : Input := ⟨Key.space, 0, 0, 0, 0⟩

/-- Begin state with the target lowered from 42 to the floor value 2. -/
def appSetup2 : App :=
  List.foldl App.handle_key_event App.default (List.replicate 40 inputL)

/-- Running state with target 2, no solves yet, session started at time 0. -/
def appRun2 : App := appSetup2.handle_key_event inputSpace

/-- Running state with target 2 and one solve recorded at time 1. -/
def appAlmost : App := appRun2.handle_key_event ⟨Key.other, 1, 1, 1, 1⟩

/-- Finished state: the second of 2 solves recorded at time 2. -/
def appDone : App := appAlmost.handle_key_event ⟨Key.other, 2, 2, 2, 2⟩

/-- Running state with the default target 42, started at time 0. -/
def appRun42 : App := App.default.handle_key_event inputSpace

/-- A Finished-state session with solve durations 1, 2 and 3 seconds. -/
def ex123 : App :=
  { state := State.Finished
    target := 3
    counter := 3
    total_begin := 0
    total_time := 6
    current_begin := 6
    exit := false
    solves := [⟨1, 1⟩, ⟨2, 2⟩, ⟨3, 3⟩] }

lemma inv_default : SessionInv App.default := by
  refine ⟨rfl, ?_, ?_, ?_, ?_, ?_, ?_⟩ <;> simp [App.default]

/-- In any state, `q` just sets the exit flag. -/
lemma handle_q (a : App) (i : Input) (hk : i.key = Key.q) :
    a.handle_key_event i = { a with exit := true } := by
  unfold App.handle_key_event
  rw [hk]
  cases hs : a.state <;> rfl

/-- In Begin, Right is routed to `increment_target`. -/
lemma handle_begin_right (a : App) (i : Input)
    (hs : a.state = State.Begin) (hk : i.key = Key.right) :
    a.handle_key_event i = a.increment_target := by
  unfold App.handle_key_event
  rw [hs, hk]

/-- In Begin, Left is routed to `decrement_target`. -/
lemma handle_begin_left (a : App) (i : Input)
    (hs : a.state = State.Begin) (hk : i.key = Key.left) :
    a.handle_key_event i = a.decrement_target := by
  unfold App.handle_key_event
  rw [hs, hk]

/-- In Begin, space is routed to `start_timing`. -/
lemma handle_begin_space (a : App) (i : Input)
    (hs : a.state = State.Begin) (hk : i.key = Key.space) :
    a.handle_key_event i = a.start_timing i.t1 i.t2 := by
  unfold App.handle_key_event
  rw [hs, hk]

/-- In Begin, keys other than `q`, Left, Right and space are ignored. -/
lemma handle_begin_noop (a : App) (i : Input)
    (hs : a.state = State.Begin) (hk : i.key = Key.r ∨ i.key = Key.other) :
    a.handle_key_event i = a := by
  unfold App.handle_key_event
  cases hk with
  | inl hk => rw [hs, hk]
  | inr hk => rw [hs, hk]

/-- In Running, any key other than `q` is routed to `solve_done`. -/
lemma handle_running_nonq (a : App) (i : Input)
    (hs : a.state = State.Running) (hk : i.key ≠ Key.q) :
    a.handle_key_event i = a.solve_done i.t1 i.t2 i.t3 i.t4 := by
  unfold App.handle_key_event
  rw [hs]
  cases hkey : i.key
  · exact absurd hkey hk
  all_goals rfl

/-- In Finished, `r` is routed to `reset`. -/
lemma handle_finished_r (a : App) (i : Input)
    (hs : a.state = State.Finished) (hk : i.key = Key.r) :
    a.handle_key_event i = a.reset := by
  unfold App.handle_key_event
  rw [hs, hk]

/-- In Finished, keys other than `q` and `r` are ignored. -/
lemma handle_finished_noop (a : App) (i : Input)
    (hs : a.state = State.Finished) (hkq : i.key ≠ Key.q) (hkr : i.key ≠ Key.r) :
    a.handle_key_event i = a := by
  unfold App.handle_key_event
  rw [hs]
  cases hkey : i.key
  · exact absurd hkey hkq
  · exact absurd hkey hkr
  all_goals rfl

/-- Debounce branch of `solve_done`: a first elapsed sample under half a
second returns the state unchanged. -/
lemma solve_done_debounce (a : App) (t1 t2 t3 t4 : ℚ)
    (hd : t1 - a.current_begin < 1/2) :
    a.solve_done t1 t2 t3 t4 = a := by
  unfold App.solve_done
  rw [if_pos hd]

/-- Accepting, non-final branch of `solve_done`. -/
lemma solve_done_accept_cont (a : App) (t1 t2 t3 t4 : ℚ)
    (hd : ¬ t1 - a.current_begin < 1/2)
    (hwrap : a.counter + 1 ≤ 255)
    (he : a.counter + 1 ≠ a.target) :
    a.solve_done t1 t2 t3 t4 =
      { a with
        counter := a.counter + 1
        current_begin := t3
        solves := a.solves ++ [⟨a.counter + 1, t2 - a.current_begin⟩] } := by
  unfold App.solve_done
  rw [if_neg hd]
  have hmod : (a.counter + 1) % 256 = a.counter + 1 :=
    Nat.mod_eq_of_lt (by omega)
  simp only [hmod]
  rw [if_neg he]

/-- Accepting, session-completing branch of `solve_done`. -/
lemma solve_done_accept_final (a : App) (t1 t2 t3 t4 : ℚ)
    (hd : ¬ t1 - a.current_begin < 1/2)
    (hwrap : a.counter + 1 ≤ 255)
    (he : a.counter + 1 = a.target) :
    a.solve_done t1 t2 t3 t4 =
      { a with
        counter := a.counter + 1
        current_begin := t3
        solves := a.solves ++ [⟨a.counter + 1, t2 - a.current_begin⟩]
        total_time := t4 - a.total_begin
        state := State.Finished } := by
  unfold App.solve_done
  rw [if_neg hd]
  have hmod : (a.counter + 1) % 256 = a.counter + 1 :=
    Nat.mod_eq_of_lt (by omega)
  simp only [hmod]
  rw [if_pos he]

/-- The invariant is preserved by `solve_done` in a Running state. -/
lemma inv_solve_done (a : App) (t1 t2 t3 t4 : ℚ) (h : SessionInv a)
    (hs : a.state = State.Running) :
    SessionInv (a.solve_done t1 t2 t3 t4) := by
  obtain ⟨hlen, h2, h255, hle, hBegin, hRun, hFin⟩ := h
  have hc : a.counter < a.target := hRun hs
  have hwrap : a.counter + 1 ≤ 255 := by omega
  by_cases hd : t1 - a.current_begin < 1/2
  · rw [solve_done_debounce a _ _ _ _ hd]
    exact ⟨hlen, h2, h255, hle, hBegin, hRun, hFin⟩
  · by_cases he : a.counter + 1 = a.target
    · rw [solve_done_accept_final a _ _ _ _ hd hwrap he]
      refine ⟨?_, h2, h255, ?_, ?_, ?_, ?_⟩ <;> simp [hlen, he] <;> omega
    · rw [solve_done_accept_cont a _ _ _ _ hd hwrap he]
      refine ⟨?_, h2, h255, ?_, ?_, ?_, ?_⟩ <;> simp [hlen, hs] <;> omega

/-- One key event preserves the session invariant. -/
lemma inv_step (a : App) (i : Input) (h : SessionInv a) : SessionInv (a.handle_key_event i) := by
  by_cases hq : i.key = Key.q
  · rw [handle_q a i hq]
    obtain ⟨hlen, h2, h255, hle, hBegin, hRun, hFin⟩ := h
    exact ⟨hlen, h2, h255, hle, hBegin, hRun, hFin⟩
  cases hs : a.state with
  | Begin =>
    obtain ⟨hlen, h2, h255, hle, hBegin, hRun, hFin⟩ := h
    obtain ⟨hc0, hsv⟩ := hBegin hs
    cases hkey : i.key with
    | q => exact absurd hkey hq
    | right =>
      rw [handle_begin_right a i hs hkey]
      unfold App.increment_target
      split
      · exact ⟨hlen, by simp; omega, by simp; omega, by simp; omega,
          fun _ => ⟨hc0, hsv⟩, by simp [hs], by simp [hs]⟩
      · exact ⟨hlen, h2, h255, hle, fun _ => ⟨hc0, hsv⟩, hRun, hFin⟩
    | left =>
      rw [handle_begin_left a i hs hkey]
      unfold App.decrement_target
      split
      · exact ⟨hlen, by simp; omega, by simp; omega, by simp; omega,
          fun _ => ⟨hc0, hsv⟩, by simp [hs], by simp [hs]⟩
      · exact ⟨hlen, h2, h255, hle, fun _ => ⟨hc0, hsv⟩, hRun, hFin⟩
    | space =>
      rw [handle_begin_space a i hs hkey]
      exact ⟨hlen, h2, h255, hle, by simp [App.start_timing],
        fun _ => by simp [App.start_timing]; omega, by simp [App.start_timing]⟩
    | r =>
      rw [handle_begin_noop a i hs (Or.inl hkey)]
      exact ⟨hlen, h2, h255, hle, fun _ => ⟨hc0, hsv⟩, hRun, hFin⟩
    | other =>
      rw [handle_begin_noop a i hs (Or.inr hkey)]
      exact ⟨hlen, h2, h255, hle, fun _ => ⟨hc0, hsv⟩, hRun, hFin⟩
  | Running =>
    rw [handle_running_nonq a i hs hq]
    exact inv_solve_done a _ _ _ _ h hs
  | Finished =>
    obtain ⟨hlen, h2, h255, hle, hBegin, hRun, hFin⟩ := h
    have hc : a.counter = a.target := hFin hs
    by_cases hr : i.key = Key.r
    · rw [handle_finished_r a i hs hr]
      exact ⟨by simp [App.reset], h2, h255, by simp [App.reset],
        fun _ => by simp [App.reset], by simp [App.reset, hs], by simp [App.reset, hs]⟩
    · rw [handle_finished_noop a i hs hq hr]
      exact ⟨hlen, h2, h255, hle, hBegin, hRun, hFin⟩

/-- Every reachable state satisfies the session invariant. -/
lemma reachable_inv (a : App) (h : Reachable a) : SessionInv a := by
  induction h with
  | init => exact inv_default
  | step a i _ ih => exact inv_step a i ih

/-- Folding the handler over a list of inputs stays within the reachable set. -/
lemma reachable_foldl (l : List Input) (a : App) (h : Reachable a) :
    Reachable (List.foldl App.handle_key_event a l) := by
  induction l generalizing a with
  | nil => exact h
  | cons i l ih => exact ih _ (Reachable.step a i h)

lemma reachable_appSetup2 : Reachable appSetup2 :=
  reachable_foldl _ _ Reachable.init

lemma reachable_appRun2 : Reachable appRun2 :=
  Reachable.step _ _ reachable_appSetup2

lemma reachable_appAlmost : Reachable appAlmost :=
  Reachable.step _ _ reachable_appRun2

lemma reachable_appDone : Reachable appDone :=
  Reachable.step _ _ reachable_appAlmost

lemma reachable_appRun42 : Reachable appRun42 :=
  Reachable.step _ _ Reachable.init

/-- Folding `minStep` from a `some` accumulator is the plain `min` fold. -/
lemma foldl_minStep_some (l : List ℚ) (m : ℚ) :
    l.foldl minStep (some m) = some (l.foldl min m) := by
  induction l generalizing m with
  | nil => rfl
  | cons x xs ih => simpa [minStep] using ih (min m x)

/-- Folding `maxStep` from a `some` accumulator is the plain `max` fold. -/
lemma foldl_maxStep_some (l : List ℚ) (m : ℚ) :
    l.foldl maxStep (some m) = some (l.foldl max m) := by
  induction l generalizing m with
  | nil => rfl
  | cons x xs ih => simpa [maxStep] using ih (max m x)

lemma foldl_min_le_init (xs : List ℚ) (m : ℚ) : xs.foldl min m ≤ m := by
  induction xs generalizing m with
  | nil => exact le_refl m
  | cons x xs ih => exact le_trans (ih (min m x)) (min_le_left m x)

lemma foldl_min_le_mem (xs : List ℚ) (m x : ℚ) (hx : x ∈ xs) :
    xs.foldl min m ≤ x := by
  induction xs generalizing m with
  | nil => cases hx
  | cons y ys ih =>
    cases List.mem_cons.mp hx with
    | inl hxy =>
      subst hxy
      exact le_trans (foldl_min_le_init ys (min m x)) (min_le_right m x)
    | inr hmem => exact ih (min m y) hmem

lemma foldl_min_mem (xs : List ℚ) (m : ℚ) :
    xs.foldl min m = m ∨ xs.foldl min m ∈ xs := by
  induction xs generalizing m with
  | nil => exact Or.inl rfl
  | cons x xs ih =>
    cases ih (min m x) with
    | inl heq =>
      cases min_choice m x with
      | inl hm => exact Or.inl (by rw [List.foldl_cons, heq, hm])
      | inr hx =>
        exact Or.inr (by rw [List.foldl_cons, heq, hx]; exact List.mem_cons_self x xs)
    | inr hmem => exact Or.inr (List.mem_cons_of_mem x hmem)

lemma le_foldl_max_init (xs : List ℚ) (m : ℚ) : m ≤ xs.foldl max m := by
  induction xs generalizing m with
  | nil => exact le_refl m
  | cons x xs ih => exact le_trans (le_max_left m x) (ih (max m x))

lemma mem_le_foldl_max (xs : List ℚ) (m x : ℚ) (hx : x ∈ xs) :
    x ≤ xs.foldl max m := by
  induction xs generalizing m with
  | nil => cases hx
  | cons y ys ih =>
    cases List.mem_cons.mp hx with
    | inl hxy =>
      subst hxy
      exact le_trans (le_max_right m x) (le_foldl_max_init ys (max m x))
    | inr hmem => exact ih (max m y) hmem

lemma foldl_max_mem (xs : List ℚ) (m : ℚ) :
    xs.foldl max m = m ∨ xs.foldl max m ∈ xs := by
  induction xs generalizing m with
  | nil => exact Or.inl rfl
  | cons x xs ih =>
    cases ih (max m x) with
    | inl heq =>
      cases max_choice m x with
      | inl hm => exact Or.inl (by rw [List.foldl_cons, heq, hm])
      | inr hx =>
        exact Or.inr (by rw [List.foldl_cons, heq, hx]; exact List.mem_cons_self x xs)
    | inr hmem => exact Or.inr (List.mem_cons_of_mem x hmem)

/-- Target adjustments in Begin keep the state in Begin and the target within
the `u8` bounds `[2, 255]`. -/
lemma target_adjust_aux (l : List Input) :
    ∀ (a : App), a.state = State.Begin →
    (∀ i ∈ l, i.key = Key.left ∨ i.key = Key.right) →
    2 ≤ a.target → a.target ≤ 255 →
    (List.foldl App.handle_key_event a l).state = State.Begin ∧
    2 ≤ (List.foldl App.handle_key_event a l).target ∧
    (List.foldl App.handle_key_event a l).target ≤ 255 := by
  induction l with
  | nil => exact fun a hs _ h2 h255 => ⟨hs, h2, h255⟩
  | cons i l ih =>
    intro a hs hk h2 h255
    simp only [List.foldl_cons]
    have hki := hk i (List.mem_cons_self i l)
    have hstep : (a.handle_key_event i).state = State.Begin ∧
        2 ≤ (a.handle_key_event i).target ∧ (a.handle_key_event i).target ≤ 255 := by
      cases hki with
      | inl hkey =>
        rw [handle_begin_left a i hs hkey]
        unfold App.decrement_target
        split
        · refine ⟨?_, ?_, ?_⟩ <;> simp [hs] <;> omega
        · exact ⟨hs, h2, h255⟩
      | inr hkey =>
        rw [handle_begin_right a i hs hkey]
        unfold App.increment_target
        split
        · refine ⟨?_, ?_, ?_⟩ <;> simp [hs] <;> omega
        · exact ⟨hs, h2, h255⟩
    exact ih _ hstep.1 (fun j hj => hk j (List.mem_cons_of_mem i hj))
      hstep.2.1 hstep.2.2

/-- `appRun2` evaluated: Running, target 2, session started at time 0. -/
lemma appRun2_eq : appRun2 = ⟨State.Running, 2, 0, 0, 0, 0, false, []⟩ := by
  decide

/-- `appAlmost` evaluated: one accepted solve of duration 1. -/
lemma appAlmost_eq :
    appAlmost = ⟨State.Running, 2, 1, 0, 0, 1, false, [⟨1, 1⟩]⟩ := by
  unfold appAlmost
  rw [appRun2_eq, handle_running_nonq _ _ rfl (by decide),
    solve_done_accept_cont _ _ _ _ _ (by norm_num) (by norm_num) (by norm_num)]
  norm_num

/-- `appDone` evaluated: second accepted solve completes the session at
time 2. -/
lemma appDone_eq :
    appDone = ⟨State.Finished, 2, 2, 0, 2, 2, false, [⟨1, 1⟩, ⟨2, 1⟩]⟩ := by
  unfold appDone
  rw [appAlmost_eq, handle_running_nonq _ _ rfl (by decide),
    solve_done_accept_final _ _ _ _ _ (by norm_num) (by norm_num) (by norm_num)]
  norm_num

lemma average_ex123 : calculate_average ex123 = some 2 := by
  norm_num [calculate_average, ex123]

lemma fastest_ex123 : calculate_fastest ex123 = some 1 := by
  norm_num [calculate_fastest, ex123, minStep, min_def]

lemma slowest_ex123 : calculate_slowest ex123 = some 3 := by
  norm_num [calculate_slowest, ex123, maxStep, max_def]

/-- C1: In the Active phase, a `record_attempt` event whose elapsed time since
the attempt start is at least 0.5 seconds increments `counter` by exactly 1,
appends exactly one solve whose sequence number equals the new counter and
whose recorded time is the re-sampled elapsed value, and resets the attempt
start (`current_begin`) to now. -/
theorem solve_accept (a : App) (i : Input) (hr : Reachable a)
    (hs : a.state = State.Running) (hk : i.key ≠ Key.q)
    (hd : 1/2 ≤ i.t1 - a.current_begin) :
    (a.handle_key_event i).counter = a.counter + 1 ∧
    (a.handle_key_event i).solves =
      a.solves ++ [⟨a.counter + 1, i.t2 - a.current_begin⟩] ∧
    ((a.handle_key_event i).solves.getLast?).map Solve.number =
      some ((a.handle_key_event i).counter) ∧
    (a.handle_key_event i).current_begin = i.t3 := by
  obtain ⟨hlen, h2, h255, hle, hBegin, hRun, hFin⟩ := reachable_inv a hr
  have hc : a.counter < a.target := hRun hs
  have hwrap : a.counter + 1 ≤ 255 := by omega
  have hd' : ¬ i.t1 - a.current_begin < 1/2 := not_lt.mpr hd
  rw [handle_running_nonq a i hs hk]
  by_cases he : a.counter + 1 = a.target
  · rw [solve_done_accept_final a _ _ _ _ hd' hwrap he]
    refine ⟨rfl, rfl, ?_, rfl⟩
    simp
  · rw [solve_done_accept_cont a _ _ _ _ hd' hwrap he]
    refine ⟨rfl, rfl, ?_, rfl⟩
    simp

theorem solve_accept_witness :
    appRun42.state = State.Running ∧
    (1 : ℚ)/2 ≤ 1 - appRun42.current_begin ∧
    ((appRun42.handle_key_event ⟨Key.other, 1, 2, 3, 4⟩).counter =
        appRun42.counter + 1 ∧
      (appRun42.handle_key_event ⟨Key.other, 1, 2, 3, 4⟩).solves =
        appRun42.solves ++ [⟨appRun42.counter + 1, 2 - appRun42.current_begin⟩] ∧
      ((appRun42.handle_key_event ⟨Key.other, 1, 2, 3, 4⟩).solves.getLast?).map
          Solve.number =
        some ((appRun42.handle_key_event ⟨Key.other, 1, 2, 3, 4⟩).counter) ∧
      (appRun42.handle_key_event ⟨Key.other, 1, 2, 3, 4⟩).current_begin = 3) :=
  have h1 : appRun42.state = State.Running := rfl
  have hd : (1 : ℚ)/2 ≤ 1 - appRun42.current_begin := by
    rw [show appRun42.current_begin = (0 : ℚ) from rfl]
    norm_num
  ⟨h1, hd,
    solve_accept appRun42 ⟨Key.other, 1, 2, 3, 4⟩ reachable_appRun42 h1
      (by decide) hd⟩

/-- C2: In the Active phase, a `record_attempt` event with elapsed time below
0.5 seconds changes nothing at all, and a following accepted attempt is still
measured from the original (undisturbed) attempt start. -/
theorem solve_debounce (a : App) (i j : Input) (hr : Reachable a)
    (hs : a.state = State.Running) (hk : i.key ≠ Key.q)
    (hd : i.t1 - a.current_begin < 1/2) :
    a.handle_key_event i = a ∧
    (j.key ≠ Key.q → 1/2 ≤ j.t1 - a.current_begin →
      ((a.handle_key_event i).handle_key_event j).solves =
        a.solves ++ [⟨a.counter + 1, j.t2 - a.current_begin⟩]) := by
  have h1 : a.handle_key_event i = a := by
    rw [handle_running_nonq a i hs hk, solve_done_debounce a _ _ _ _ hd]
  refine ⟨h1, fun hkj hdj => ?_⟩
  rw [h1]
  obtain ⟨hlen, h2, h255, hle, hBegin, hRun, hFin⟩ := reachable_inv a hr
  have hc : a.counter < a.target := hRun hs
  have hwrap : a.counter + 1 ≤ 255 := by omega
  have hd' : ¬ j.t1 - a.current_begin < 1/2 := not_lt.mpr hdj
  rw [handle_running_nonq a j hs hkj]
  by_cases he : a.counter + 1 = a.target
  · rw [solve_done_accept_final a _ _ _ _ hd' hwrap he]
  · rw [solve_done_accept_cont a _ _ _ _ hd' hwrap he]

theorem solve_debounce_witness :
    appRun42.state = State.Running ∧
    (1 : ℚ)/5 - appRun42.current_begin < 1/2 ∧
    (appRun42.handle_key_event ⟨Key.other, 1/5, 1/5, 1/5, 1/5⟩ = appRun42 ∧
      ((Key.other : Key) ≠ Key.q → (1 : ℚ)/2 ≤ 3/5 - appRun42.current_begin →
        ((appRun42.handle_key_event
            ⟨Key.other, 1/5, 1/5, 1/5, 1/5⟩).handle_key_event
              ⟨Key.other, 3/5, 3/5, 1, 1⟩).solves =
          appRun42.solves ++
            [⟨appRun42.counter + 1, 3/5 - appRun42.current_begin⟩])) :=
  have h1 : appRun42.state = State.Running := rfl
  have hd : (1 : ℚ)/5 - appRun42.current_begin < 1/2 := by
    rw [show appRun42.current_begin = (0 : ℚ) from rfl]
    norm_num
  ⟨h1, hd,
    solve_debounce appRun42 ⟨Key.other, 1/5, 1/5, 1/5, 1/5⟩
      ⟨Key.other, 3/5, 3/5, 1, 1⟩ reachable_appRun42 h1 (by decide) hd⟩

/-- C3: An accepted `record_attempt` that brings the counter up to the target
moves the session to Finished and sets `total_time` from the session start;
afterwards `total_time` is frozen: no event handled outside Running (reset
included) and no Running-to-Running step changes it, so it can only change
again when a later session completes. -/
theorem complete_freeze (a : App) (i : Input) (hr : Reachable a) :
    (a.state = State.Running → i.key ≠ Key.q → 1/2 ≤ i.t1 - a.current_begin →
      a.counter + 1 = a.target →
      (a.handle_key_event i).state = State.Finished ∧
      (a.handle_key_event i).total_time = i.t4 - a.total_begin) ∧
    (a.state ≠ State.Running →
      (a.handle_key_event i).total_time = a.total_time) ∧
    (a.state = State.Running → (a.handle_key_event i).state = State.Running →
      (a.handle_key_event i).total_time = a.total_time) := by
  obtain ⟨hlen, h2, h255, hle, hBegin, hRun, hFin⟩ := reachable_inv a hr
  refine ⟨?_, ?_, ?_⟩
  · intro hs hk hd he
    have hwrap : a.counter + 1 ≤ 255 := by have := hRun hs; omega
    have hd' : ¬ i.t1 - a.current_begin < 1/2 := not_lt.mpr hd
    rw [handle_running_nonq a i hs hk,
      solve_done_accept_final a _ _ _ _ hd' hwrap he]
    exact ⟨rfl, rfl⟩
  · intro hns
    by_cases hq : i.key = Key.q
    · rw [handle_q a i hq]
    · cases hstate : a.state with
      | Begin =>
        cases hkey : i.key with
        | q => exact absurd hkey hq
        | right =>
          rw [handle_begin_right a i hstate hkey]
          unfold App.increment_target
          split <;> rfl
        | left =>
          rw [handle_begin_left a i hstate hkey]
          unfold App.decrement_target
          split <;> rfl
        | space => rw [handle_begin_space a i hstate hkey]; rfl
        | r => rw [handle_begin_noop a i hstate (Or.inl hkey)]
        | other => rw [handle_begin_noop a i hstate (Or.inr hkey)]
      | Running => exact absurd hstate hns
      | Finished =>
        by_cases hkr : i.key = Key.r
        · rw [handle_finished_r a i hstate hkr]; rfl
        · rw [handle_finished_noop a i hstate hq hkr]
  · intro hs hres
    have hwrap : a.counter + 1 ≤ 255 := by have := hRun hs; omega
    by_cases hq : i.key = Key.q
    · rw [handle_q a i hq]
    · rw [handle_running_nonq a i hs hq] at hres ⊢
      by_cases hd : i.t1 - a.current_begin < 1/2
      · rw [solve_done_debounce a _ _ _ _ hd]
      · by_cases he : a.counter + 1 = a.target
        · rw [solve_done_accept_final a _ _ _ _ hd hwrap he] at hres
          exact absurd hres (by simp)
        · rw [solve_done_accept_cont a _ _ _ _ hd hwrap he]

theorem complete_freeze_witness :
    appAlmost.state = State.Running ∧
    appAlmost.counter + 1 = appAlmost.target ∧
    (1 : ℚ)/2 ≤ 2 - appAlmost.current_begin ∧
    (appAlmost.handle_key_event ⟨Key.other, 2, 2, 2, 2⟩).state =
      State.Finished ∧
    (appAlmost.handle_key_event ⟨Key.other, 2, 2, 2, 2⟩).total_time =
      2 - appAlmost.total_begin :=
  have h1 : appAlmost.state = State.Running := by rw [appAlmost_eq]
  have h2 : appAlmost.counter + 1 = appAlmost.target := by rw [appAlmost_eq]
  have hd : (1 : ℚ)/2 ≤ 2 - appAlmost.current_begin := by
    rw [appAlmost_eq]
    norm_num
  have hmain :=
    (complete_freeze appAlmost ⟨Key.other, 2, 2, 2, 2⟩ reachable_appAlmost).1
      h1 (by decide) hd h2
  ⟨h1, h2, hd, hmain.1, hmain.2⟩

/-- C4: The begin transition (Setup to Active) always yields a state with
counter 0 and no solves, whatever the prior session history, and records the
two `now()` readings in `total_begin` and `current_begin`. -/
theorem begin_resets (a : App) (i : Input) (hr : Reachable a)
    (hs : a.state = State.Begin) (hk : i.key = Key.space) :
    (a.handle_key_event i).state = State.Running ∧
    (a.handle_key_event i).counter = 0 ∧
    (a.handle_key_event i).solves = [] ∧
    (a.handle_key_event i).total_begin = i.t1 ∧
    (a.handle_key_event i).current_begin = i.t2 := by
  obtain ⟨hlen, h2, h255, hle, hBegin, hRun, hFin⟩ := reachable_inv a hr
  obtain ⟨hc0, hsv⟩ := hBegin hs
  rw [handle_begin_space a i hs hk]
  exact ⟨rfl, hc0, hsv, rfl, rfl⟩

theorem begin_resets_witness :
    App.default.state = State.Begin ∧
    ((App.default.handle_key_event ⟨Key.space, 5, 6, 0, 0⟩).state =
        State.Running ∧
      (App.default.handle_key_event ⟨Key.space, 5, 6, 0, 0⟩).counter = 0 ∧
      (App.default.handle_key_event ⟨Key.space, 5, 6, 0, 0⟩).solves = [] ∧
      (App.default.handle_key_event ⟨Key.space, 5, 6, 0, 0⟩).total_begin = 5 ∧
      (App.default.handle_key_event ⟨Key.space, 5, 6, 0, 0⟩).current_begin = 6) :=
  ⟨rfl,
    begin_resets App.default ⟨Key.space, 5, 6, 0, 0⟩ Reachable.init rfl rfl⟩

/-- C5: In every reachable state the counter equals the length of the solve
list, so the statistics code may use either interchangeably. -/
theorem counter_eq_solves_length (a : App) (hr : Reachable a) :
    a.counter = a.solves.length :=
  (reachable_inv a hr).1

theorem counter_eq_solves_length_witness :
    appDone.counter = appDone.solves.length :=
  counter_eq_solves_length appDone reachable_appDone

/-- C6: On states where the counter mirrors the solve-list length (the C5
invariant), `calculate_average`, `calculate_fastest` and `calculate_slowest`
are `none` exactly on an empty solve list; on a non-empty list the average is
the sum divided by the count, the fastest a minimum and the slowest a maximum
of the recorded times; over durations 1, 2, 3 they yield 2, 1 and 3. -/
theorem stats_spec (a : App) (h : a.counter = a.solves.length) :
    (calculate_average a = none ↔ a.solves = []) ∧
    (calculate_fastest a = none ↔ a.solves = []) ∧
    (calculate_slowest a = none ↔ a.solves = []) ∧
    (a.solves ≠ [] →
      calculate_average a =
        some ((a.solves.map Solve.time).sum / (a.solves.length : ℚ))) ∧
    (a.solves ≠ [] → ∃ m, calculate_fastest a = some m ∧
      m ∈ a.solves.map Solve.time ∧ ∀ t ∈ a.solves.map Solve.time, m ≤ t) ∧
    (a.solves ≠ [] → ∃ m, calculate_slowest a = some m ∧
      m ∈ a.solves.map Solve.time ∧ ∀ t ∈ a.solves.map Solve.time, t ≤ m) ∧
    calculate_average ex123 = some 2 ∧
    calculate_fastest ex123 = some 1 ∧
    calculate_slowest ex123 = some 3 := by
  refine ⟨?_, ?_, ?_, ?_, ?_, ?_, average_ex123, fastest_ex123, slowest_ex123⟩
  · unfold calculate_average
    split
    · next hc =>
      have hnil : a.solves = [] := List.length_eq_zero.mp (by omega)
      simp [hnil]
    · next hc =>
      have hne : a.solves ≠ [] := by
        intro hnil
        exact hc (by rw [h, hnil]; rfl)
      simp [hne]
  · cases hsv : a.solves with
    | nil => simp [calculate_fastest, hsv]
    | cons s ss =>
      unfold calculate_fastest
      rw [hsv]
      simp only [List.map_cons, List.foldl_cons, minStep, foldl_minStep_some]
      simp
  · cases hsv : a.solves with
    | nil => simp [calculate_slowest, hsv]
    | cons s ss =>
      unfold calculate_slowest
      rw [hsv]
      simp only [List.map_cons, List.foldl_cons, maxStep, foldl_maxStep_some]
      simp
  · intro hne
    unfold calculate_average
    rw [if_neg (by rw [h]; simpa using hne), h]
  · intro hne
    cases hsv : a.solves with
    | nil => exact absurd hsv hne
    | cons s ss =>
      refine ⟨(ss.map Solve.time).foldl min s.time, ?_, ?_, ?_⟩
      · unfold calculate_fastest
        rw [hsv]
        simp only [List.map_cons, List.foldl_cons, minStep, foldl_minStep_some]
      · cases foldl_min_mem (ss.map Solve.time) s.time with
        | inl heq => rw [heq]; simp
        | inr hmem => simp only [List.map_cons]; exact List.mem_cons_of_mem _ hmem
      · intro t ht
        simp only [List.map_cons, List.mem_cons] at ht
        cases ht with
        | inl hts => rw [hts]; exact foldl_min_le_init _ _
        | inr htm => exact foldl_min_le_mem _ _ _ htm
  · intro hne
    cases hsv : a.solves with
    | nil => exact absurd hsv hne
    | cons s ss =>
      refine ⟨(ss.map Solve.time).foldl max s.time, ?_, ?_, ?_⟩
      · unfold calculate_slowest
        rw [hsv]
        simp only [List.map_cons, List.foldl_cons, maxStep, foldl_maxStep_some]
      · cases foldl_max_mem (ss.map Solve.time) s.time with
        | inl heq => rw [heq]; simp
        | inr hmem => simp only [List.map_cons]; exact List.mem_cons_of_mem _ hmem
      · intro t ht
        simp only [List.map_cons, List.mem_cons] at ht
        cases ht with
        | inl hts => rw [hts]; exact le_foldl_max_init _ _
        | inr htm => exact mem_le_foldl_max _ _ _ htm

theorem stats_spec_witness :
    ex123.counter = ex123.solves.length ∧
    ((calculate_average ex123 = none ↔ ex123.solves = []) ∧
      (calculate_fastest ex123 = none ↔ ex123.solves = []) ∧
      (calculate_slowest ex123 = none ↔ ex123.solves = []) ∧
      (ex123.solves ≠ [] →
        calculate_average ex123 =
          some ((ex123.solves.map Solve.time).sum / (ex123.solves.length : ℚ))) ∧
      (ex123.solves ≠ [] → ∃ m, calculate_fastest ex123 = some m ∧
        m ∈ ex123.solves.map Solve.time ∧
        ∀ t ∈ ex123.solves.map Solve.time, m ≤ t) ∧
      (ex123.solves ≠ [] → ∃ m, calculate_slowest ex123 = some m ∧
        m ∈ ex123.solves.map Solve.time ∧
        ∀ t ∈ ex123.solves.map Solve.time, t ≤ m) ∧
      calculate_average ex123 = some 2 ∧
      calculate_fastest ex123 = some 1 ∧
      calculate_slowest ex123 = some 3) :=
  ⟨rfl, stats_spec ex123 rfl⟩

/-- C7: `predict_marathon_time` is `average * 42`, undefined (the `unwrap`
would panic) exactly when the average is absent; in every reachable Finished
state — in particular whenever the Complete panel is rendered, where it is
only called with `target != 42` — the average exists, so the failure branch
is unreachable there. -/
theorem marathon_prediction_spec (a : App) (hr : Reachable a) :
    (calculate_average a = none → predict_marathon_time a = none) ∧
    (∀ v, calculate_average a = some v →
      predict_marathon_time a = some (v * 42)) ∧
    (a.state = State.Finished → ∃ v, predict_marathon_time a = some v) := by
  refine ⟨?_, ?_, ?_⟩
  · intro hnone
    simp [predict_marathon_time, hnone]
  · intro v hv
    simp [predict_marathon_time, hv]
  · intro hfin
    obtain ⟨hlen, h2, h255, hle, hBegin, hRun, hFin⟩ := reachable_inv a hr
    have hc : a.counter = a.target := hFin hfin
    have hne : ¬ a.counter = 0 := by omega
    exact ⟨(a.solves.map Solve.time).sum / (a.counter : ℚ) * 42,
      by simp [predict_marathon_time, calculate_average, hne]⟩

theorem marathon_prediction_spec_witness :
    appDone.state = State.Finished ∧
    ((calculate_average appDone = none → predict_marathon_time appDone = none) ∧
      (∀ v, calculate_average appDone = some v →
        predict_marathon_time appDone = some (v * 42)) ∧
      (appDone.state = State.Finished →
        ∃ v, predict_marathon_time appDone = some v)) :=
  ⟨by rw [appDone_eq], marathon_prediction_spec appDone reachable_appDone⟩

/-- C8: Any sequence of Left/Right (decrease/increase) key events in the
Setup phase keeps the target within `[2, 255]`; increase is a no-op at 255
and decrease a no-op at 2. -/
theorem target_bounds (a : App) (l : List Input)
    (hs : a.state = State.Begin)
    (hk : ∀ i ∈ l, i.key = Key.left ∨ i.key = Key.right)
    (h2 : 2 ≤ a.target) (h255 : a.target ≤ 255) :
    2 ≤ (List.foldl App.handle_key_event a l).target ∧
    (List.foldl App.handle_key_event a l).target ≤ 255 ∧
    (a.target = 255 → a.increment_target = a) ∧
    (a.target = 2 → a.decrement_target = a) := by
  obtain ⟨-, hb2, hb255⟩ := target_adjust_aux l a hs hk h2 h255
  refine ⟨hb2, hb255, ?_, ?_⟩
  · intro h
    unfold App.increment_target
    rw [if_neg (by omega : ¬ a.target < 255)]
  · intro h
    unfold App.decrement_target
    rw [if_neg (by omega : ¬ a.target > 2)]

theorem target_bounds_witness :
    App.default.state = State.Begin ∧
    2 ≤ App.default.target ∧ App.default.target ≤ 255 ∧
    (2 ≤ (List.foldl App.handle_key_event App.default
        [inputL, ⟨Key.right, 0, 0, 0, 0⟩]).target ∧
      (List.foldl App.handle_key_event App.default
        [inputL, ⟨Key.right, 0, 0, 0, 0⟩]).target ≤ 255 ∧
      (App.default.target = 255 → App.default.increment_target = App.default) ∧
      (App.default.target = 2 → App.default.decrement_target = App.default)) :=
  ⟨rfl, by decide, by decide,
    target_bounds App.default [inputL, ⟨Key.right, 0, 0, 0, 0⟩] rfl
      (by decide) (by decide) (by decide)⟩

/-- C9: `reset` from Finished returns to Begin with counter 0 and solves
cleared, and changes nothing else: target, timestamps, total_time and the
exit flag are all preserved. -/
theorem reset_spec (a : App) (i : Input)
    (hs : a.state = State.Finished) (hk : i.key = Key.r) :
    a.handle_key_event i =
      { a with state := State.Begin, counter := 0, solves := [] } := by
  rw [handle_finished_r a i hs hk]
  rfl

theorem reset_spec_witness :
    appDone.state = State.Finished ∧
    appDone.handle_key_event ⟨Key.r, 9, 9, 9, 9⟩ =
      { appDone with state := State.Begin, counter := 0, solves := [] } :=
  have hs : appDone.state = State.Finished := by rw [appDone_eq]
  ⟨hs, reset_spec appDone ⟨Key.r, 9, 9, 9, 9⟩ hs rfl⟩

/-- C10: In every reachable Running state the counter is strictly below the
target, so the rendered `Current cube` value `counter + 1` equals the exact
sum, stays at most the target, and the `u8` addition cannot overflow. -/
theorem running_counter_safe (a : App) (hr : Reachable a)
    (hs : a.state = State.Running) :
    a.counter < a.target ∧
    currentCubeDisplay a = a.counter + 1 ∧
    currentCubeDisplay a ≤ a.target ∧
    a.counter + 1 ≤ 255 := by
  obtain ⟨hlen, h2, h255, hle, hBegin, hRun, hFin⟩ := reachable_inv a hr
  have hc : a.counter < a.target := hRun hs
  have hm : currentCubeDisplay a = a.counter + 1 :=
    Nat.mod_eq_of_lt (by omega)
  refine ⟨hc, hm, ?_, by omega⟩
  rw [hm]
  omega

theorem running_counter_safe_witness :
    appAlmost.state = State.Running ∧
    (appAlmost.counter < appAlmost.target ∧
      currentCubeDisplay appAlmost = appAlmost.counter + 1 ∧
      currentCubeDisplay appAlmost ≤ appAlmost.target ∧
      appAlmost.counter + 1 ≤ 255) :=
  have hs : appAlmost.state = State.Running := by rw [appAlmost_eq]
  ⟨hs, running_counter_safe appAlmost reachable_appAlmost hs⟩
